import Mathlib

/-!
Verification of the topological-sort primitive in `graph/top_sort.go`.

The Go code is shallowly embedded: vertices are an arbitrary type `V`,
identifiers an arbitrary type `I` with decidable equality (Go compares map
keys with `==`), and provider-defined errors an arbitrary type `ε`.  Go's
uniform `error` interface becomes the inductive `GoError`: `errString`
models `errors.New`, `cycleError` models `*CycleError`, and `custom`
models any other caller-defined error value.  The mutable traversal map is
threaded as a total function `I → TState` (a missing key reads as the zero
value `stateNew`, exactly like a Go map), the shared `*[]interface{}`
result slice is threaded as a list, and `path` is passed by value per
branch as in the source.  Recursion is made total with a fuel parameter:
`none` means the fuel ran out; for every sufficiently large fuel the
embedding computes exactly what the Go code computes.
-/

set_option linter.unusedSectionVars false

namespace MbtGraph

/-- Go `tState` with constants `stateNew`, `stateOpen`, `stateClosed`. -/
inductive TState where
  | stateNew : TState
  | stateOpen : TState
  | stateClosed : TState
deriving DecidableEq, Repr

/-- Go's `error` values that can flow through `TopSort`: `errors.New`
strings, the sorter's own `*CycleError` (carrying its `Path`), and any
other caller-defined error returned by a provider. -/
inductive GoError (V ε : Type) where
  | errString : String → GoError V ε
  | cycleError : List V → GoError V ε
  | custom : ε → GoError V ε
deriving DecidableEq

/-- Go interface `NodeProvider` with methods `ID`, `ChildCount`, `Child`. -/
structure NodeProvider (V I ε : Type) where
  ID : V → I
  ChildCount : V → Nat
  Child : V → Nat → Except (GoError V ε) V

variable {V I ε : Type} [DecidableEq I]

/-- Update of the traversal-state map, `traversalState[id] = s`. -/
def stUpdate (ts : I → TState) (idv : I) (s : TState) : I → TState :=
  fun x => if x = idv then s else ts x

/-- The `for i := 0; i < ChildCount(node); i++` loop body of `dfsVisit`:
iterate over the remaining child indices, fetching each child and running
`visit` (the recursive `dfsVisit` at the current path) on it, threading
the traversal state and result slice, short-circuiting on any error. -/
def visitRange (np : NodeProvider V I ε)
    (visit : V → (I → TState) → List V →
      Option (Except (GoError V ε) ((I → TState) × List V)))
    (node : V) :
    List Nat → (I → TState) → List V →
      Option (Except (GoError V ε) ((I → TState) × List V))
  | [], ts, sorted => some (Except.ok (ts, sorted))
  | i :: rest, ts, sorted =>
    match np.Child node i with
    | Except.error e => some (Except.error e)
    | Except.ok c =>
      match visit c ts sorted with
      | none => none
      | some (Except.error e) => some (Except.error e)
      | some (Except.ok (ts2, sorted2)) => visitRange np visit node rest ts2 sorted2

/-- Go `dfsVisit`, with a fuel parameter making the recursion total
(`none` = out of fuel).  Mirrors the source line by line: the `stateOpen`
check returns `&CycleError{Path: append(path, node)}`, the `stateClosed`
check returns success, otherwise the node is opened, the children are
visited with the extended path, and on success the node is closed and
appended to the result slice. -/
def dfsVisit (np : NodeProvider V I ε) :
    Nat → V → (I → TState) → List V → List V →
      Option (Except (GoError V ε) ((I → TState) × List V))
  | 0, _, _, _, _ => none
  | fuel + 1, node, ts, sorted, path =>
    if ts (np.ID node) = TState.stateOpen then
      some (Except.error (GoError.cycleError (path ++ [node])))
    else if ts (np.ID node) = TState.stateClosed then
      some (Except.ok (ts, sorted))
    else
      match visitRange np
          (fun c ts1 sorted1 => dfsVisit np fuel c ts1 sorted1 (path ++ [node]))
          node (List.range (np.ChildCount node))
          (stUpdate ts (np.ID node) TState.stateOpen) sorted with
      | none => none
      | some (Except.error e) => some (Except.error e)
      | some (Except.ok (ts2, sorted2)) =>
        some (Except.ok (stUpdate ts2 (np.ID node) TState.stateClosed, sorted2 ++ [node]))

/-- The root loop of Go `TopSort`: visit each root in order with the shared
traversal state and result slice, aborting on the first error. -/
def sortLoop (np : NodeProvider V I ε) (fuel : Nat) :
    List V → (I → TState) → List V → Option (Except (GoError V ε) (List V))
  | [], _, results => some (Except.ok results)
  | node :: rest, ts, results =>
    match dfsVisit np fuel node ts results [] with
    | none => none
    | some (Except.error e) => some (Except.error e)
    | some (Except.ok (ts2, results2)) => sortLoop np fuel rest ts2 results2

/-- Go `TopSort`: nil-provider check, then the root loop starting from the
empty traversal state and empty result slice. -/
def TopSort (np? : Option (NodeProvider V I ε)) (fuel : Nat) (graph : List V) :
    Option (Except (GoError V ε) (List V)) :=
  match np? with
  | none => some (Except.error (GoError.errString "nodeProvider should be a valid reference"))
  | some np => sortLoop np fuel graph (fun _ => TState.stateNew) []

/-- Edge relation of the graph presented by a provider: `v` is a child of
`u` at some valid index. -/
def edge (np : NodeProvider V I ε) (u v : V) : Prop :=
  ∃ i, i < np.ChildCount u ∧ np.Child u i = Except.ok v

/-- A vertex is reachable when some root has an edge path to it. -/
def Reach (np : NodeProvider V I ε) (roots : List V) (v : V) : Prop :=
  ∃ r ∈ roots, Relation.ReflTransGen (edge np) r v

/-- Invariant of the traversal state and result slice maintained by the
DFS: closed identifiers are exactly the identifiers of emitted vertices,
emitted identifiers are pairwise distinct, and every emitted vertex's
children appear (by identifier) no later than the vertex itself. -/
structure GInv (np : NodeProvider V I ε) (ts : I → TState) (sorted : List V) : Prop where
  closed_mem : ∀ x, ts x = TState.stateClosed → ∃ w ∈ sorted, np.ID w = x
  mem_closed : ∀ w ∈ sorted, ts (np.ID w) = TState.stateClosed
  nodup : List.Pairwise (fun a b => np.ID a ≠ np.ID b) sorted
  order : ∀ l1 a l2, sorted = l1 ++ a :: l2 → ∀ v, edge np a v →
    ∃ w ∈ l1 ++ [a], np.ID w = np.ID v

/-- Concrete provider with a single vertex graph and no edges. -/
def npNoChildren : NodeProvider Nat Nat Unit :=
  { ID := fun v => v, ChildCount := fun _ => 0,
    Child := fun _ _ => Except.error (GoError.custom ()) }

/-- Concrete provider whose every child lookup fails with a caller error. -/
def npFailingChild : NodeProvider Nat Nat Unit :=
  { ID := fun v => v, ChildCount := fun _ => 1,
    Child := fun _ _ => Except.error (GoError.custom ()) }

/-- Concrete provider where every vertex has itself as its only child. -/
def npSelfLoop : NodeProvider Nat Nat Unit :=
  { ID := fun v => v, ChildCount := fun _ => 1,
    Child := fun v _ => Except.ok v }

/-- Concrete provider with the cycle 0 → 1 → 2 → 0. -/
def npTriangle : NodeProvider Nat Nat Unit :=
  { ID := fun v => v, ChildCount := fun _ => 1,
    Child := fun v _ => Except.ok ((v + 1) % 3) }

/-- How one traversal-state map evolves into another across a successful
visit: every identifier is untouched or went from `stateNew` to
`stateClosed`. -/
def evolv (ts ts' : I → TState) : Prop :=
  ∀ x, ts' x = ts x ∨ (ts x = TState.stateNew ∧ ts' x = TState.stateClosed)

lemma evolv_refl (ts : I → TState) : evolv ts ts :=
  fun _ => Or.inl rfl

lemma evolv_trans {ts1 ts2 ts3 : I → TState} (h12 : evolv ts1 ts2) (h23 : evolv ts2 ts3) :
    evolv ts1 ts3 := by
  intro x
  rcases h23 x with h | ⟨hn, hc⟩
  · rw [h]; exact h12 x
  · rcases h12 x with h' | ⟨hn', _⟩
    · rw [h'] at hn; exact Or.inr ⟨hn, hc⟩
    · exact Or.inr ⟨hn', hc⟩

lemma evolv_open_iff {ts ts' : I → TState} (h : evolv ts ts') (x : I) :
    ts' x = TState.stateOpen ↔ ts x = TState.stateOpen := by
  rcases h x with h' | ⟨hn, hc⟩
  · rw [h']
  · rw [hn, hc]; constructor <;> intro hh <;> cases hh

lemma evolv_closed {ts ts' : I → TState} (h : evolv ts ts') {x : I}
    (hx : ts x = TState.stateClosed) : ts' x = TState.stateClosed := by
  rcases h x with h' | ⟨hn, hc⟩
  · rw [h', hx]
  · exact hc

lemma tstate_cases (s : TState) :
    s = TState.stateNew ∨ s = TState.stateOpen ∨ s = TState.stateClosed := by
  cases s
  · exact Or.inl rfl
  · exact Or.inr (Or.inl rfl)
  · exact Or.inr (Or.inr rfl)

lemma visitRange_evolv (np : NodeProvider V I ε)
    (visit : V → (I → TState) → List V →
      Option (Except (GoError V ε) ((I → TState) × List V)))
    (node : V)
    (hv : ∀ c ts s ts' s', visit c ts s = some (Except.ok (ts', s')) → evolv ts ts') :
    ∀ idxs ts s ts' s',
      visitRange np visit node idxs ts s = some (Except.ok (ts', s')) → evolv ts ts' := by
  intro idxs
  induction idxs with
  | nil =>
    intro ts s ts' s' h
    simp only [visitRange, Option.some.injEq, Except.ok.injEq, Prod.mk.injEq] at h
    rw [← h.1]
    exact evolv_refl ts
  | cons i rest ih =>
    intro ts s ts' s' h
    simp only [visitRange] at h
    cases hc : np.Child node i with
    | error e => rw [hc] at h; simp at h
    | ok c =>
      rw [hc] at h
      dsimp only at h
      match hvis : visit c ts s with
      | none => rw [hvis] at h; simp at h
      | some (Except.error e) => rw [hvis] at h; simp at h
      | some (Except.ok (ts2, s2)) =>
        rw [hvis] at h
        dsimp only at h
        exact evolv_trans (hv c ts s ts2 s2 hvis) (ih ts2 s2 ts' s' h)

lemma dfsVisit_evolv (np : NodeProvider V I ε) :
    ∀ fuel node ts s path ts' s',
      dfsVisit np fuel node ts s path = some (Except.ok (ts', s')) → evolv ts ts' := by
  intro fuel
  induction fuel with
  | zero => intro node ts s path ts' s' h; simp [dfsVisit] at h
  | succ fuel ih =>
    intro node ts s path ts' s' h
    simp only [dfsVisit] at h
    by_cases h1 : ts (np.ID node) = TState.stateOpen
    · rw [if_pos h1] at h; simp at h
    · rw [if_neg h1] at h
      by_cases h2 : ts (np.ID node) = TState.stateClosed
      · rw [if_pos h2] at h
        simp only [Option.some.injEq, Except.ok.injEq, Prod.mk.injEq] at h
        rw [← h.1]
        exact evolv_refl ts
      · rw [if_neg h2] at h
        have hnew : ts (np.ID node) = TState.stateNew := by
          rcases tstate_cases (ts (np.ID node)) with hh | hh | hh
          · exact hh
          · exact absurd hh h1
          · exact absurd hh h2
        cases hr : visitRange np
            (fun c ts1 s1 => dfsVisit np fuel c ts1 s1 (path ++ [node])) node
            (List.range (np.ChildCount node))
            (stUpdate ts (np.ID node) TState.stateOpen) s with
        | none => rw [hr] at h; simp at h
        | some r =>
          rw [hr] at h
          match r with
          | Except.error e => simp at h
          | Except.ok (ts2, s2) =>
            simp only [Option.some.injEq, Except.ok.injEq, Prod.mk.injEq] at h
            have hev : evolv (stUpdate ts (np.ID node) TState.stateOpen) ts2 :=
              visitRange_evolv np _ node
                (fun c a b a' b' hh => ih c a b (path ++ [node]) a' b' hh)
                (List.range (np.ChildCount node)) _ s ts2 s2 hr
            rw [← h.1]
            intro x
            by_cases hx : x = np.ID node
            · subst hx
              exact Or.inr ⟨hnew, by simp [stUpdate]⟩
            · have hu1 : stUpdate ts (np.ID node) TState.stateOpen x = ts x := by
                simp [stUpdate, hx]
              have hu2 : stUpdate ts2 (np.ID node) TState.stateClosed x = ts2 x := by
                simp [stUpdate, hx]
              rw [hu2]
              rcases hev x with h' | ⟨hn, hc⟩
              · rw [h', hu1]; exact Or.inl rfl
              · rw [hu1] at hn; exact Or.inr ⟨hn, hc⟩

lemma dfsVisit_zero (np : NodeProvider V I ε) (node : V) (ts : I → TState)
    (s path : List V) : dfsVisit np 0 node ts s path = none :=
  rfl

lemma dfsVisit_succ (np : NodeProvider V I ε) (fuel : Nat) (node : V) (ts : I → TState)
    (s path : List V) :
    dfsVisit np (fuel + 1) node ts s path =
      if ts (np.ID node) = TState.stateOpen then
        some (Except.error (GoError.cycleError (path ++ [node])))
      else if ts (np.ID node) = TState.stateClosed then
        some (Except.ok (ts, s))
      else
        match visitRange np
            (fun c ts1 s1 => dfsVisit np fuel c ts1 s1 (path ++ [node])) node
            (List.range (np.ChildCount node))
            (stUpdate ts (np.ID node) TState.stateOpen) s with
        | none => none
        | some (Except.error e) => some (Except.error e)
        | some (Except.ok (ts2, s2)) =>
          some (Except.ok (stUpdate ts2 (np.ID node) TState.stateClosed, s2 ++ [node])) :=
  rfl

lemma visitRange_mono (np : NodeProvider V I ε)
    (visit visit' : V → (I → TState) → List V →
      Option (Except (GoError V ε) ((I → TState) × List V)))
    (node : V)
    (hv : ∀ c ts s r, visit c ts s = some r → visit' c ts s = some r) :
    ∀ idxs ts s r, visitRange np visit node idxs ts s = some r →
      visitRange np visit' node idxs ts s = some r := by
  intro idxs
  induction idxs with
  | nil => intro ts s r h; simpa [visitRange] using h
  | cons i rest ih =>
    intro ts s r h
    simp only [visitRange] at h ⊢
    cases hc : np.Child node i with
    | error e => rw [hc] at h; dsimp only at h ⊢; exact h
    | ok c =>
      rw [hc] at h
      dsimp only at h ⊢
      match hvis : visit c ts s with
      | none => rw [hvis] at h; simp at h
      | some (Except.error e) =>
        rw [hvis] at h
        rw [hv c ts s _ hvis]
        dsimp only at h ⊢
        exact h
      | some (Except.ok (ts2, s2)) =>
        rw [hvis] at h
        rw [hv c ts s _ hvis]
        dsimp only at h ⊢
        exact ih ts2 s2 r h

lemma dfsVisit_mono (np : NodeProvider V I ε) :
    ∀ fuel node ts s path r,
      dfsVisit np fuel node ts s path = some r →
      dfsVisit np (fuel + 1) node ts s path = some r := by
  intro fuel
  induction fuel with
  | zero => intro node ts s path r h; simp [dfsVisit] at h
  | succ fuel ih =>
    intro node ts s path r h
    rw [dfsVisit_succ] at h ⊢
    by_cases h1 : ts (np.ID node) = TState.stateOpen
    · rw [if_pos h1] at h ⊢; exact h
    · rw [if_neg h1] at h ⊢
      by_cases h2 : ts (np.ID node) = TState.stateClosed
      · rw [if_pos h2] at h ⊢; exact h
      · rw [if_neg h2] at h ⊢
        match hr : visitRange np
            (fun c ts1 s1 => dfsVisit np fuel c ts1 s1 (path ++ [node])) node
            (List.range (np.ChildCount node))
            (stUpdate ts (np.ID node) TState.stateOpen) s with
        | none => rw [hr] at h; simp at h
        | some (Except.error e) =>
          rw [hr] at h
          rw [visitRange_mono np _ _ node
            (fun c a b rr hh => ih c a b (path ++ [node]) rr hh) _ _ _ _ hr]
          dsimp only at h ⊢
          exact h
        | some (Except.ok (ts2, s2)) =>
          rw [hr] at h
          rw [visitRange_mono np _ _ node
            (fun c a b rr hh => ih c a b (path ++ [node]) rr hh) _ _ _ _ hr]
          dsimp only at h ⊢
          exact h

lemma dfsVisit_mono_le (np : NodeProvider V I ε) {fuel fuel' : Nat} (hle : fuel ≤ fuel') :
    ∀ node ts s path r,
      dfsVisit np fuel node ts s path = some r →
      dfsVisit np fuel' node ts s path = some r := by
  induction hle with
  | refl => intro node ts s path r h; exact h
  | step _ ih =>
    intro node ts s path r h
    exact dfsVisit_mono np _ node ts s path r (ih node ts s path r h)

lemma sortLoop_mono (np : NodeProvider V I ε) {fuel fuel' : Nat} (hle : fuel ≤ fuel') :
    ∀ rest ts res r, sortLoop np fuel rest ts res = some r →
      sortLoop np fuel' rest ts res = some r := by
  intro rest
  induction rest with
  | nil => intro ts res r h; simpa [sortLoop] using h
  | cons node rest ih =>
    intro ts res r h
    simp only [sortLoop] at h ⊢
    match hd : dfsVisit np fuel node ts res [] with
    | none => rw [hd] at h; simp at h
    | some (Except.error e) =>
      rw [hd] at h
      rw [dfsVisit_mono_le np hle node ts res [] _ hd]
      dsimp only at h ⊢
      exact h
    | some (Except.ok (ts2, res2)) =>
      rw [hd] at h
      rw [dfsVisit_mono_le np hle node ts res [] _ hd]
      dsimp only at h ⊢
      exact ih ts2 res2 r h

/-- C7: `TopSort` is deterministic: with the (pure, hence deterministic)
provider and roots fixed, any two invocations that complete (for any two
fuel amounts) produce the same outcome, and in particular on success the
same output sequence. -/
theorem topSort_deterministic (np? : Option (NodeProvider V I ε)) (roots : List V)
    (fuel1 fuel2 : Nat) (r1 r2 : Except (GoError V ε) (List V))
    (h1 : TopSort np? fuel1 roots = some r1) (h2 : TopSort np? fuel2 roots = some r2) :
    r1 = r2 := by
  cases np? with
  | none =>
    simp only [TopSort, Option.some.injEq] at h1 h2
    rw [← h1, ← h2]
  | some np =>
    rcases Nat.le_total fuel1 fuel2 with hle | hle
    · have := sortLoop_mono np hle roots (fun _ => TState.stateNew) [] r1 h1
      rw [TopSort] at h2
      rw [this] at h2
      exact Option.some.inj h2
    · have := sortLoop_mono np hle roots (fun _ => TState.stateNew) [] r2 h2
      rw [TopSort] at h1
      rw [this] at h1
      exact (Option.some.inj h1).symm

/-- C7 witness: the determinism theorem applied to a concrete provider at
two different fuel amounts. -/
theorem topSort_deterministic_witness :
    (Except.ok [0] : Except (GoError Nat Unit) (List Nat)) = Except.ok [0] :=
  topSort_deterministic (some npNoChildren) [0] 2 5
    (Except.ok [0]) (Except.ok [0]) rfl rfl

/-- C5: a nil provider makes `TopSort` fail immediately with the
invalid-provider error, for every fuel and every roots list, before any
traversal: the result does not depend on the roots at all. -/
theorem topSort_nil_provider (fuel : Nat) (roots : List V) :
    TopSort (none : Option (NodeProvider V I ε)) fuel roots =
      some (Except.error (GoError.errString "nodeProvider should be a valid reference")) :=
  rfl

/-- C8: zero roots always succeed with the empty result, for every
provider and fuel, with no provider operation involved. -/
theorem topSort_empty_roots (np : NodeProvider V I ε) (fuel : Nat) :
    TopSort (some np) fuel [] = some (Except.ok ([] : List V)) :=
  rfl

/-- C4: every failure aborts the whole multi-root sort.  If visiting a
root fails, the root loop returns exactly that error (never a half-built
result sequence), for every list of remaining roots, which are never
attempted; likewise for `TopSort` on its first root. -/
theorem topSort_error_aborts :
    (∀ (np : NodeProvider V I ε) fuel node (post : List V) ts res e,
        dfsVisit np fuel node ts res [] = some (Except.error e) →
        sortLoop np fuel (node :: post) ts res = some (Except.error e)) ∧
    (∀ (np : NodeProvider V I ε) fuel node (post : List V) e,
        dfsVisit np fuel node (fun _ => TState.stateNew) [] [] = some (Except.error e) →
        TopSort (some np) fuel (node :: post) = some (Except.error e)) := by
  constructor
  · intro np fuel node post ts res e h
    simp only [sortLoop]
    rw [h]
  · intro np fuel node post e h
    simp only [TopSort, sortLoop]
    rw [h]

/-- C4 witness: a provider whose only child lookup fails; the error aborts
the sort with further roots ignored. -/
theorem topSort_error_aborts_witness :
    TopSort (some npFailingChild) 1 [0, 5] =
      some (Except.error (GoError.custom ())) :=
  topSort_error_aborts.2 npFailingChild 1 0 [5] (GoError.custom ()) rfl

lemma filter_stUpdate_open (S : Finset I) (ts : I → TState) (idv : I) :
    (S.filter fun x => ¬ stUpdate ts idv TState.stateOpen x = TState.stateOpen) =
      (S.filter fun x => ¬ ts x = TState.stateOpen).erase idv := by
  ext x
  by_cases hx : x = idv <;>
    simp [Finset.mem_filter, Finset.mem_erase, stUpdate, hx]

lemma evolv_filter_card (S : Finset I) {ts ts' : I → TState} (h : evolv ts ts') :
    (S.filter fun x => ¬ ts' x = TState.stateOpen).card =
      (S.filter fun x => ¬ ts x = TState.stateOpen).card := by
  congr 1
  ext x
  simp only [Finset.mem_filter, and_congr_right_iff]
  intro _
  rw [not_iff_not]
  exact evolv_open_iff h x

lemma visitRange_notNone (np : NodeProvider V I ε)
    (visit : V → (I → TState) → List V →
      Option (Except (GoError V ε) ((I → TState) × List V)))
    (node : V) (Hc : V → Prop) (P : (I → TState) → Prop)
    (hv : ∀ c ts s, Hc c → P ts →
      (visit c ts s ≠ none ∧
        ∀ ts' s', visit c ts s = some (Except.ok (ts', s')) → P ts')) :
    ∀ idxs, (∀ i ∈ idxs, ∀ c, np.Child node i = Except.ok c → Hc c) →
      ∀ ts s, P ts → visitRange np visit node idxs ts s ≠ none := by
  intro idxs
  induction idxs with
  | nil => intro _ ts s _; simp [visitRange]
  | cons i rest ih =>
    intro hc ts s hP
    simp only [visitRange]
    cases hcc : np.Child node i with
    | error e => simp
    | ok c =>
      dsimp only
      have hcS : Hc c := hc i (List.mem_cons_self i rest) c hcc
      match hvis : visit c ts s with
      | none => exact absurd hvis (hv c ts s hcS hP).1
      | some (Except.error e) => simp
      | some (Except.ok (ts2, s2)) =>
        dsimp only
        exact ih (fun j hj => hc j (List.mem_cons_of_mem i hj))
          ts2 s2 ((hv c ts s hcS hP).2 ts2 s2 hvis)

lemma dfsVisit_notNone (np : NodeProvider V I ε) (S : Finset I)
    (hclosed : ∀ v i c, np.ID v ∈ S → i < np.ChildCount v →
      np.Child v i = Except.ok c → np.ID c ∈ S) :
    ∀ fuel node ts s path, np.ID node ∈ S →
      (S.filter fun x => ¬ ts x = TState.stateOpen).card < fuel →
      dfsVisit np fuel node ts s path ≠ none := by
  intro fuel
  induction fuel with
  | zero => intro node ts s path _ hcard; exact absurd hcard (Nat.not_lt_zero _)
  | succ fuel ih =>
    intro node ts s path hS hcard
    rw [dfsVisit_succ]
    by_cases h1 : ts (np.ID node) = TState.stateOpen
    · rw [if_pos h1]; simp
    · rw [if_neg h1]
      by_cases h2 : ts (np.ID node) = TState.stateClosed
      · rw [if_pos h2]; simp
      · rw [if_neg h2]
        have hmem : np.ID node ∈ S.filter fun x => ¬ ts x = TState.stateOpen :=
          Finset.mem_filter.mpr ⟨hS, h1⟩
        have hcard' :
            (S.filter fun x =>
              ¬ stUpdate ts (np.ID node) TState.stateOpen x = TState.stateOpen).card < fuel := by
          rw [filter_stUpdate_open, Finset.card_erase_of_mem hmem]
          have hpos : 0 < (S.filter fun x => ¬ ts x = TState.stateOpen).card :=
            Finset.card_pos.mpr ⟨np.ID node, hmem⟩
          omega
        have hrange : visitRange np
            (fun c ts1 s1 => dfsVisit np fuel c ts1 s1 (path ++ [node])) node
            (List.range (np.ChildCount node))
            (stUpdate ts (np.ID node) TState.stateOpen) s ≠ none := by
          apply visitRange_notNone np _ node (fun c => np.ID c ∈ S)
            (fun ts1 => (S.filter fun x => ¬ ts1 x = TState.stateOpen).card < fuel)
            (fun c ts1 s1 hcS hP => by
              refine ⟨ih c ts1 s1 (path ++ [node]) hcS hP, fun ts' s' hok => ?_⟩
              show (S.filter fun x => ¬ ts' x = TState.stateOpen).card < fuel
              rw [evolv_filter_card S (dfsVisit_evolv np fuel c ts1 s1 _ ts' s' hok)]
              exact hP)
            (List.range (np.ChildCount node))
            (fun i hi c hcc => hclosed node i c hS (List.mem_range.mp hi) hcc)
            _ s hcard'
        match hr : visitRange np
            (fun c ts1 s1 => dfsVisit np fuel c ts1 s1 (path ++ [node])) node
            (List.range (np.ChildCount node))
            (stUpdate ts (np.ID node) TState.stateOpen) s with
        | none => exact absurd hr hrange
        | some (Except.error e) => simp
        | some (Except.ok (ts2, s2)) => simp

/-- C10: `TopSort` terminates on every input whose reachable identifiers
fit in a finite set `S` closed under the child relation, cycles and
failing lookups included: fuel `S.card + 1` always produces an answer
(each identifier is opened at most once, so the recursion depth is bounded
by the number of identifiers). -/
theorem topSort_terminates (np : NodeProvider V I ε) (roots : List V) (S : Finset I)
    (hroots : ∀ r ∈ roots, np.ID r ∈ S)
    (hclosed : ∀ v i c, np.ID v ∈ S → i < np.ChildCount v →
      np.Child v i = Except.ok c → np.ID c ∈ S) :
    ∃ r, TopSort (some np) (S.card + 1) roots = some r := by
  rw [TopSort]
  have main : ∀ rest ts res, (∀ r ∈ rest, np.ID r ∈ S) →
      ∃ r, sortLoop np (S.card + 1) rest ts res = some r := by
    intro rest
    induction rest with
    | nil => intro ts res _; exact ⟨Except.ok res, rfl⟩
    | cons node rest ih =>
      intro ts res hmem
      have hcard : (S.filter fun x => ¬ ts x = TState.stateOpen).card < S.card + 1 :=
        Nat.lt_succ_of_le (Finset.card_filter_le S _)
      have hnn := dfsVisit_notNone np S hclosed (S.card + 1) node ts res []
        (hmem node (List.mem_cons_self node rest)) hcard
      simp only [sortLoop]
      match hd : dfsVisit np (S.card + 1) node ts res [] with
      | none => exact absurd hd hnn
      | some (Except.error e) => exact ⟨Except.error e, rfl⟩
      | some (Except.ok (ts2, res2)) =>
        exact ih ts2 res2 (fun r hr => hmem r (List.mem_cons_of_mem node hr))
  exact main roots (fun _ => TState.stateNew) [] hroots

/-- C10 witness: the termination theorem applied to a concrete one-vertex
provider. -/
theorem topSort_terminates_witness :
    ∃ r, TopSort (some npSelfLoop) (Finset.card {0} + 1) [0] = some r :=
  topSort_terminates npSelfLoop [0] {0}
    (by intro r hr; simp at hr; simp [hr, npSelfLoop])
    (by intro v i c hv hi hc
        simp only [npSelfLoop] at hc
        cases hc
        exact hv)

/-- C6: a failing child lookup is propagated immediately and unchanged
(the very same error value): the child loop returns it without touching
the remaining indices; an error bubbling out of a child's recursive visit
likewise short-circuits the remaining siblings unchanged; and from a first
root whose first child lookup fails, `TopSort` returns exactly that error
with the remaining roots never attempted. -/
theorem childLookup_error_propagates :
    (∀ (np : NodeProvider V I ε) visit node i (rest : List Nat) ts s e,
        np.Child node i = Except.error e →
        visitRange np visit node (i :: rest) ts s = some (Except.error e)) ∧
    (∀ (np : NodeProvider V I ε) visit node i (rest : List Nat) c ts s e,
        np.Child node i = Except.ok c → visit c ts s = some (Except.error e) →
        visitRange np visit node (i :: rest) ts s = some (Except.error e)) ∧
    (∀ (np : NodeProvider V I ε) fuel v (post : List V) e,
        np.Child v 0 = Except.error e → 1 ≤ np.ChildCount v →
        TopSort (some np) (fuel + 1) (v :: post) = some (Except.error e)) := by
  refine ⟨?_, ?_, ?_⟩
  · intro np visit node i rest ts s e h
    simp only [visitRange, h]
  · intro np visit node i rest c ts s e hc hv
    simp only [visitRange, hc, hv]
  · intro np fuel v post e hc hcount
    obtain ⟨k, hk⟩ : ∃ k, np.ChildCount v = k + 1 := ⟨np.ChildCount v - 1, by omega⟩
    have h0 : dfsVisit np (fuel + 1) v (fun _ => TState.stateNew) [] [] =
        some (Except.error e) := by
      rw [dfsVisit_succ]
      rw [if_neg (by simp), if_neg (by simp)]
      rw [hk, List.range_succ_eq_map]
      simp only [visitRange, hc]
    simp only [TopSort, sortLoop, h0]

/-- C6 witness: a provider whose child lookups fail with a caller-defined
error; `TopSort` surfaces exactly that error and skips the second root. -/
theorem childLookup_error_propagates_witness :
    TopSort (some npFailingChild) 1 [0, 7] =
      some (Except.error (GoError.custom ())) :=
  childLookup_error_propagates.2.2 npFailingChild 0 0 [7] (GoError.custom ())
    rfl (Nat.le_refl 1)

lemma visitRange_cycleErr (np : NodeProvider V I ε)
    (visit : V → (I → TState) → List V →
      Option (Except (GoError V ε) ((I → TState) × List V)))
    (node : V) (Pre : (I → TState) → Prop) (Goal : List V → Prop)
    (hv : ∀ c ts s p', Pre ts →
      visit c ts s = some (Except.error (GoError.cycleError p')) → Goal p')
    (hpres : ∀ c ts s ts' s', Pre ts →
      visit c ts s = some (Except.ok (ts', s')) → Pre ts') :
    ∀ idxs, (∀ i ∈ idxs, ∀ pa, np.Child node i ≠ Except.error (GoError.cycleError pa)) →
      ∀ ts s p', Pre ts →
        visitRange np visit node idxs ts s = some (Except.error (GoError.cycleError p')) →
        Goal p' := by
  intro idxs
  induction idxs with
  | nil => intro _ ts s p' _ h; simp [visitRange] at h
  | cons i rest ih =>
    intro hne ts s p' hPre h
    simp only [visitRange] at h
    cases hc : np.Child node i with
    | error e =>
      rw [hc] at h
      dsimp only at h
      simp only [Option.some.injEq, Except.error.injEq] at h
      rw [h] at hc
      exact absurd hc (hne i (List.mem_cons_self i rest) p')
    | ok c =>
      rw [hc] at h
      dsimp only at h
      match hvis : visit c ts s with
      | none => rw [hvis] at h; simp at h
      | some (Except.error e) =>
        rw [hvis] at h
        dsimp only at h
        simp only [Option.some.injEq, Except.error.injEq] at h
        rw [h] at hvis
        exact hv c ts s p' hPre hvis
      | some (Except.ok (ts2, s2)) =>
        rw [hvis] at h
        dsimp only at h
        exact ih (fun j hj => hne j (List.mem_cons_of_mem i hj)) ts2 s2 p'
          (hpres c ts s ts2 s2 hPre hvis) h

lemma dfsVisit_cycleErr (np : NodeProvider V I ε)
    (hne : ∀ v i pa, np.Child v i ≠ Except.error (GoError.cycleError pa)) :
    ∀ fuel node ts s path p',
      (∀ x, ts x = TState.stateOpen → ∃ u ∈ path, np.ID u = x) →
      dfsVisit np fuel node ts s path = some (Except.error (GoError.cycleError p')) →
      ∃ pre x, p' = pre ++ [x] ∧ ∃ y ∈ pre, np.ID y = np.ID x := by
  intro fuel
  induction fuel with
  | zero => intro node ts s path p' _ h; simp [dfsVisit] at h
  | succ fuel ih =>
    intro node ts s path p' hopen h
    rw [dfsVisit_succ] at h
    by_cases h1 : ts (np.ID node) = TState.stateOpen
    · rw [if_pos h1] at h
      simp only [Option.some.injEq, Except.error.injEq, GoError.cycleError.injEq] at h
      obtain ⟨u, hu, hid⟩ := hopen (np.ID node) h1
      exact ⟨path, node, h.symm, u, hu, hid⟩
    · rw [if_neg h1] at h
      by_cases h2 : ts (np.ID node) = TState.stateClosed
      · rw [if_pos h2] at h; simp at h
      · rw [if_neg h2] at h
        match hr : visitRange np
            (fun c ts1 s1 => dfsVisit np fuel c ts1 s1 (path ++ [node])) node
            (List.range (np.ChildCount node))
            (stUpdate ts (np.ID node) TState.stateOpen) s with
        | none => rw [hr] at h; simp at h
        | some (Except.error e) =>
          rw [hr] at h
          dsimp only at h
          simp only [Option.some.injEq, Except.error.injEq] at h
          rw [h] at hr
          refine visitRange_cycleErr np _ node
            (fun ts1 => ∀ x, ts1 x = TState.stateOpen → ∃ u ∈ path ++ [node], np.ID u = x)
            _
            (fun c ts1 s1 pp hPre hvis => ih c ts1 s1 (path ++ [node]) pp hPre hvis)
            (fun c ts1 s1 ts' s' hPre hok x hx => hPre x
              ((evolv_open_iff (dfsVisit_evolv np fuel c ts1 s1 _ ts' s' hok) x).mp hx))
            (List.range (np.ChildCount node))
            (fun i _ pa => hne node i pa)
            _ s p' ?_ hr
          intro x hx
          by_cases hxn : x = np.ID node
          · exact ⟨node, List.mem_append_right path (List.mem_singleton.mpr rfl), hxn.symm⟩
          · have : ts x = TState.stateOpen := by
              have hup : stUpdate ts (np.ID node) TState.stateOpen x = ts x := by
                simp [stUpdate, hxn]
              rw [← hup]; exact hx
            obtain ⟨u, hu, hid⟩ := hopen x this
            exact ⟨u, List.mem_append_left [node] hu, hid⟩
        | some (Except.ok (ts2, s2)) =>
          rw [hr] at h
          simp at h

/-- C9: every `CycleError` produced by `TopSort` itself (the provider
never fabricates one) carries a path that witnesses a cycle: the path is
nonempty and the identifier of its last element (the re-entered vertex)
equals the identifier of an earlier element of the same path. -/
theorem cycleError_path_wellFormed (np : NodeProvider V I ε) (fuel : Nat)
    (roots : List V) (p' : List V)
    (hne : ∀ v i pa, np.Child v i ≠ Except.error (GoError.cycleError pa))
    (h : TopSort (some np) fuel roots = some (Except.error (GoError.cycleError p'))) :
    ∃ pre x, p' = pre ++ [x] ∧ ∃ y ∈ pre, np.ID y = np.ID x := by
  rw [TopSort] at h
  have main : ∀ rest ts res, (∀ x, ¬ ts x = TState.stateOpen) →
      sortLoop np fuel rest ts res = some (Except.error (GoError.cycleError p')) →
      ∃ pre x, p' = pre ++ [x] ∧ ∃ y ∈ pre, np.ID y = np.ID x := by
    intro rest
    induction rest with
    | nil => intro ts res _ h'; simp [sortLoop] at h'
    | cons node rest ih =>
      intro ts res hno h'
      simp only [sortLoop] at h'
      match hd : dfsVisit np fuel node ts res [] with
      | none => rw [hd] at h'; simp at h'
      | some (Except.error e) =>
        rw [hd] at h'
        dsimp only at h'
        simp only [Option.some.injEq, Except.error.injEq] at h'
        rw [h'] at hd
        exact dfsVisit_cycleErr np hne fuel node ts res [] p'
          (fun x hx => absurd hx (hno x)) hd
      | some (Except.ok (ts2, res2)) =>
        rw [hd] at h'
        dsimp only at h'
        refine ih ts2 res2 (fun x hx => ?_) h'
        exact hno x ((evolv_open_iff (dfsVisit_evolv np fuel node ts res [] ts2 res2 hd) x).mp hx)
  exact main roots (fun _ => TState.stateNew) [] (fun x h' => by cases h') h

/-- C9 witness: the self-loop provider's cycle error `[0, 0]` decomposes
as required by the theorem. -/
theorem cycleError_path_wellFormed_witness :
    ∃ pre x, ([0, 0] : List Nat) = pre ++ [x] ∧ ∃ y ∈ pre, npSelfLoop.ID y = npSelfLoop.ID x :=
  cycleError_path_wellFormed npSelfLoop 2 [0] [0, 0]
    (fun v i pa h => by simp [npSelfLoop] at h) rfl

lemma visitRange_errForm (np : NodeProvider V I ε)
    (visit : V → (I → TState) → List V →
      Option (Except (GoError V ε) ((I → TState) × List V)))
    (node : V)
    (hv : ∀ c ts s e, visit c ts s = some (Except.error e) →
      ∃ pa, e = GoError.cycleError pa) :
    ∀ idxs, (∀ i ∈ idxs, ∃ c, np.Child node i = Except.ok c) →
      ∀ ts s e, visitRange np visit node idxs ts s = some (Except.error e) →
        ∃ pa, e = GoError.cycleError pa := by
  intro idxs
  induction idxs with
  | nil => intro _ ts s e h; simp [visitRange] at h
  | cons i rest ih =>
    intro hok ts s e h
    simp only [visitRange] at h
    obtain ⟨c, hc⟩ := hok i (List.mem_cons_self i rest)
    rw [hc] at h
    dsimp only at h
    match hvis : visit c ts s with
    | none => rw [hvis] at h; simp at h
    | some (Except.error e') =>
      rw [hvis] at h
      dsimp only at h
      simp only [Option.some.injEq, Except.error.injEq] at h
      rw [h] at hvis
      exact hv c ts s e hvis
    | some (Except.ok (ts2, s2)) =>
      rw [hvis] at h
      dsimp only at h
      exact ih (fun j hj => hok j (List.mem_cons_of_mem i hj)) ts2 s2 e h

lemma dfsVisit_errForm (np : NodeProvider V I ε)
    (htot : ∀ u i, i < np.ChildCount u → ∃ c, np.Child u i = Except.ok c) :
    ∀ fuel node ts s path e,
      dfsVisit np fuel node ts s path = some (Except.error e) →
      ∃ pa, e = GoError.cycleError pa := by
  intro fuel
  induction fuel with
  | zero => intro node ts s path e h; simp [dfsVisit] at h
  | succ fuel ih =>
    intro node ts s path e h
    rw [dfsVisit_succ] at h
    by_cases h1 : ts (np.ID node) = TState.stateOpen
    · rw [if_pos h1] at h
      simp only [Option.some.injEq, Except.error.injEq] at h
      exact ⟨path ++ [node], h.symm⟩
    · rw [if_neg h1] at h
      by_cases h2 : ts (np.ID node) = TState.stateClosed
      · rw [if_pos h2] at h; simp at h
      · rw [if_neg h2] at h
        match hr : visitRange np
            (fun c ts1 s1 => dfsVisit np fuel c ts1 s1 (path ++ [node])) node
            (List.range (np.ChildCount node))
            (stUpdate ts (np.ID node) TState.stateOpen) s with
        | none => rw [hr] at h; simp at h
        | some (Except.error e') =>
          rw [hr] at h
          dsimp only at h
          simp only [Option.some.injEq, Except.error.injEq] at h
          rw [h] at hr
          exact visitRange_errForm np _ node
            (fun c ts1 s1 e'' hvis => ih c ts1 s1 (path ++ [node]) e'' hvis)
            (List.range (np.ChildCount node))
            (fun i hi => htot node i (List.mem_range.mp hi))
            _ s e hr
        | some (Except.ok (ts2, s2)) => rw [hr] at h; simp at h

lemma dfsVisit_open_notOk (np : NodeProvider V I ε) (v : V) :
    ∀ fuel ts s path, ts (np.ID v) = TState.stateOpen →
      ∀ ts' s', dfsVisit np fuel v ts s path ≠ some (Except.ok (ts', s')) := by
  intro fuel ts s path hop ts' s'
  cases fuel with
  | zero => simp [dfsVisit]
  | succ fuel => rw [dfsVisit_succ, if_pos hop]; simp

lemma visitRange_never_ok_selfOpen (np : NodeProvider V I ε)
    (visit : V → (I → TState) → List V →
      Option (Except (GoError V ε) ((I → TState) × List V)))
    (node v : V)
    (hvopen : ∀ ts s, ts (np.ID v) = TState.stateOpen →
      ∀ ts' s', visit v ts s ≠ some (Except.ok (ts', s')))
    (hev : ∀ c ts s ts' s', visit c ts s = some (Except.ok (ts', s')) → evolv ts ts') :
    ∀ idxs ts s, (∃ i ∈ idxs, np.Child node i = Except.ok v) →
      ts (np.ID v) = TState.stateOpen →
      ∀ ts' s', visitRange np visit node idxs ts s ≠ some (Except.ok (ts', s')) := by
  intro idxs
  induction idxs with
  | nil => intro ts s hex _ ts' s'; simp at hex
  | cons j rest ih =>
    intro ts s hex hop ts' s' h
    simp only [visitRange] at h
    obtain ⟨i, hi, hieq⟩ := hex
    rcases List.mem_cons.mp hi with rfl | himem
    · rw [hieq] at h
      dsimp only at h
      match hvis : visit v ts s with
      | none => rw [hvis] at h; simp at h
      | some (Except.error e) => rw [hvis] at h; simp at h
      | some (Except.ok (ts2, s2)) => exact absurd hvis (hvopen ts s hop ts2 s2)
    · cases hc : np.Child node j with
      | error e => rw [hc] at h; simp at h
      | ok c =>
        rw [hc] at h
        dsimp only at h
        match hvis : visit c ts s with
        | none => rw [hvis] at h; simp at h
        | some (Except.error e) => rw [hvis] at h; simp at h
        | some (Except.ok (ts2, s2)) =>
          rw [hvis] at h
          dsimp only at h
          have hop2 : ts2 (np.ID v) = TState.stateOpen :=
            (evolv_open_iff (hev c ts s ts2 s2 hvis) (np.ID v)).mpr hop
          exact ih ts2 s2 ⟨i, himem, hieq⟩ hop2 ts' s' h

lemma dfsVisit_selfLoop_notOk (np : NodeProvider V I ε) (v : V)
    (hself : ∃ i, i < np.ChildCount v ∧ np.Child v i = Except.ok v) :
    ∀ fuel ts s path, ts (np.ID v) = TState.stateNew →
      ∀ ts' s', dfsVisit np fuel v ts s path ≠ some (Except.ok (ts', s')) := by
  intro fuel ts s path hnew ts' s' h
  cases fuel with
  | zero => simp [dfsVisit] at h
  | succ fuel =>
    rw [dfsVisit_succ] at h
    rw [if_neg (by rw [hnew]; intro hh; cases hh),
        if_neg (by rw [hnew]; intro hh; cases hh)] at h
    obtain ⟨i, hilt, hieq⟩ := hself
    match hr : visitRange np
        (fun c ts1 s1 => dfsVisit np fuel c ts1 s1 (path ++ [v])) v
        (List.range (np.ChildCount v))
        (stUpdate ts (np.ID v) TState.stateOpen) s with
    | none => rw [hr] at h; simp at h
    | some (Except.error e) => rw [hr] at h; simp at h
    | some (Except.ok (ts2, s2)) =>
      refine absurd hr (visitRange_never_ok_selfOpen np _ v v
        (fun ts0 s0 hop0 ts0' s0' => dfsVisit_open_notOk np v fuel ts0 s0 (path ++ [v]) hop0 ts0' s0')
        (fun c a b a' b' hh => dfsVisit_evolv np fuel c a b (path ++ [v]) a' b' hh)
        (List.range (np.ChildCount v)) _ s
        ⟨i, List.mem_range.mpr hilt, hieq⟩
        (by simp [stUpdate]) ts2 s2)

/-- C3: cycle detection.  (1) Reaching any vertex whose identifier is
`stateOpen` fails with a `CycleError` whose path is the current branch's
path with the re-entered vertex appended.  (2) With a total provider, a
vertex whose child set includes itself, sorted as the root, always yields
a `CycleError` (whatever the fuel and however the run ends).  (3) The
three-cycle A→B→C→A started from root A yields exactly the `CycleError`
path `[A, B, C, A]`: it contains A, B, C and repeats the closing vertex. -/
theorem cycle_detection :
    (∀ (np : NodeProvider V I ε) fuel node ts s path,
        ts (np.ID node) = TState.stateOpen →
        dfsVisit np (fuel + 1) node ts s path =
          some (Except.error (GoError.cycleError (path ++ [node])))) ∧
    (∀ (np : NodeProvider V I ε) v fuel r,
        (∀ u i, i < np.ChildCount u → ∃ c, np.Child u i = Except.ok c) →
        (∃ i, i < np.ChildCount v ∧ np.Child v i = Except.ok v) →
        TopSort (some np) fuel [v] = some r →
        ∃ pa, r = Except.error (GoError.cycleError pa)) ∧
    (∀ (np : NodeProvider V I ε) (A B C : V) fuel,
        np.ChildCount A = 1 → np.Child A 0 = Except.ok B →
        np.ChildCount B = 1 → np.Child B 0 = Except.ok C →
        np.ChildCount C = 1 → np.Child C 0 = Except.ok A →
        np.ID B ≠ np.ID A → np.ID C ≠ np.ID A → np.ID C ≠ np.ID B →
        TopSort (some np) (fuel + 4) [A] =
          some (Except.error (GoError.cycleError [A, B, C, A]))) := by
  refine ⟨?_, ?_, ?_⟩
  · intro np fuel node ts s path hop
    rw [dfsVisit_succ, if_pos hop]
  · intro np v fuel r htot hself h
    rw [TopSort] at h
    simp only [sortLoop] at h
    match hd : dfsVisit np fuel v (fun _ => TState.stateNew) [] [] with
    | none => rw [hd] at h; simp at h
    | some (Except.error e) =>
      rw [hd] at h
      dsimp only at h
      simp only [Option.some.injEq] at h
      obtain ⟨pa, hpa⟩ := dfsVisit_errForm np htot fuel v _ [] [] e hd
      exact ⟨pa, by rw [← h, hpa]⟩
    | some (Except.ok (ts2, s2)) =>
      exact absurd hd (dfsVisit_selfLoop_notOk np v hself fuel _ [] [] rfl ts2 s2)
  · intro np A B C fuel hcA hchA hcB hchB hcC hchC hBA hCA hCB
    simp only [TopSort, sortLoop,
      show fuel + 4 = fuel + 3 + 1 from rfl,
      show fuel + 3 = fuel + 2 + 1 from rfl,
      show fuel + 2 = fuel + 1 + 1 from rfl,
      dfsVisit_succ, visitRange, stUpdate,
      hcA, hchA, hcB, hchB, hcC, hchC,
      hBA, hCA, hCB, Ne.symm hBA, Ne.symm hCA, Ne.symm hCB,
      show List.range 1 = [0] from rfl,
      List.nil_append, List.cons_append, List.append_nil,
      if_true, if_false, ite_true, ite_false, reduceCtorEq]

/-- C3 witness: the triangle 0→1→2→0 yields exactly the cycle error path
`[0, 1, 2, 0]`. -/
theorem cycle_detection_witness :
    TopSort (some npTriangle) 4 [0] =
      some (Except.error (GoError.cycleError [0, 1, 2, 0])) :=
  cycle_detection.2.2 npTriangle 0 1 2 0
    rfl rfl rfl rfl rfl rfl
    (by decide) (by decide) (by decide)

lemma snoc_split {α : Type} (l1 : List α) (a : α) (l2 s : List α) (n : α)
    (h : l1 ++ a :: l2 = s ++ [n]) :
    (l2 = [] ∧ l1 = s ∧ a = n) ∨ ∃ l2', l2 = l2' ++ [n] ∧ s = l1 ++ a :: l2' := by
  rcases List.eq_nil_or_concat' l2 with rfl | ⟨L, b, rfl⟩
  · left
    have := List.append_inj' h rfl
    exact ⟨rfl, this.1, by injection this.2⟩
  · right
    have h' : (l1 ++ a :: L) ++ [b] = s ++ [n] := by
      rw [List.append_assoc, List.cons_append]
      exact h
    have := List.append_inj' h' rfl
    have hb : b = n := by injection this.2
    exact ⟨L, by rw [hb], this.1.symm⟩

lemma visitRange_success (np : NodeProvider V I ε)
    (visit : V → (I → TState) → List V →
      Option (Except (GoError V ε) ((I → TState) × List V)))
    (node : V) (Q : (I → TState) → List V → Prop)
    (hstep : ∀ i ts s, i < np.ChildCount node → Q ts s →
      ∃ c, np.Child node i = Except.ok c ∧
        ∃ ts' s', visit c ts s = some (Except.ok (ts', s')) ∧ Q ts' s' ∧ evolv ts ts' ∧
          ts' (np.ID c) = TState.stateClosed ∧
          (∀ w ∈ s', w ∈ s ∨ Relation.ReflTransGen (edge np) node w)) :
    ∀ idxs, (∀ i ∈ idxs, i < np.ChildCount node) →
      ∀ ts s, Q ts s →
        ∃ ts' s', visitRange np visit node idxs ts s = some (Except.ok (ts', s')) ∧
          Q ts' s' ∧ evolv ts ts' ∧
          (∀ i ∈ idxs, ∀ c, np.Child node i = Except.ok c →
            ts' (np.ID c) = TState.stateClosed) ∧
          (∀ w ∈ s', w ∈ s ∨ Relation.ReflTransGen (edge np) node w) := by
  intro idxs
  induction idxs with
  | nil =>
    intro _ ts s hQ
    exact ⟨ts, s, rfl, hQ, evolv_refl ts, fun i hi => absurd hi (List.not_mem_nil i),
      fun w hw => Or.inl hw⟩
  | cons i rest ih =>
    intro hall ts s hQ
    obtain ⟨c, hc, ts2, s2, hvis, hQ2, hev2, hcl2, hrw2⟩ :=
      hstep i ts s (hall i (List.mem_cons_self i rest)) hQ
    obtain ⟨ts', s', hr, hQ', hev', hcls', hrw'⟩ :=
      ih (fun j hj => hall j (List.mem_cons_of_mem i hj)) ts2 s2 hQ2
    have hstep_eq : visitRange np visit node (i :: rest) ts s =
        visitRange np visit node rest ts2 s2 := by
      simp only [visitRange]
      rw [hc]
      dsimp only
      rw [hvis]
    refine ⟨ts', s', by rw [hstep_eq]; exact hr, hQ', evolv_trans hev2 hev', ?_, ?_⟩
    · intro j hj c' hc'
      rcases List.mem_cons.mp hj with rfl | hjr
      · have hcc : c' = c := by
          rw [hc] at hc'
          injection hc' with hcc2
          exact hcc2.symm
        rw [hcc]
        exact evolv_closed hev' hcl2
      · exact hcls' j hjr c' hc'
    · intro w hw
      rcases hrw' w hw with hw2 | hrt
      · exact hrw2 w hw2
      · exact Or.inr hrt

lemma dfsVisit_success (np : NodeProvider V I ε) (roots : List V) (S : Finset I)
    (hacyc : ∀ u w, Reach np roots u → Relation.TransGen (edge np) u w →
      np.ID w ≠ np.ID u)
    (htot : ∀ u, Reach np roots u → ∀ i, i < np.ChildCount u →
      ∃ c, np.Child u i = Except.ok c)
    (hS : ∀ u, Reach np roots u → np.ID u ∈ S) :
    ∀ fuel node ts s path,
      Reach np roots node →
      (∀ u ∈ path, Reach np roots u ∧ Relation.TransGen (edge np) u node) →
      (∀ x, ts x = TState.stateOpen → ∃ u ∈ path, np.ID u = x) →
      GInv np ts s →
      (S.filter fun x => ¬ ts x = TState.stateOpen).card < fuel →
      ∃ ts' s',
        dfsVisit np fuel node ts s path = some (Except.ok (ts', s')) ∧
        GInv np ts' s' ∧ evolv ts ts' ∧
        ts' (np.ID node) = TState.stateClosed ∧
        (∀ w ∈ s', w ∈ s ∨ Relation.ReflTransGen (edge np) node w) := by
  intro fuel
  induction fuel with
  | zero => intro node ts s path _ _ _ _ hcard; exact absurd hcard (Nat.not_lt_zero _)
  | succ fuel ih =>
    intro node ts s path hreach hbr hopen hInv hcard
    by_cases h1 : ts (np.ID node) = TState.stateOpen
    · exfalso
      obtain ⟨u, hu, hid⟩ := hopen _ h1
      exact hacyc u node (hbr u hu).1 (hbr u hu).2 hid.symm
    · by_cases h2 : ts (np.ID node) = TState.stateClosed
      · refine ⟨ts, s, ?_, hInv, evolv_refl ts, h2, fun w hw => Or.inl hw⟩
        rw [dfsVisit_succ, if_neg h1, if_pos h2]
      · have hnew : ts (np.ID node) = TState.stateNew := by
          rcases tstate_cases (ts (np.ID node)) with hh | hh | hh
          · exact hh
          · exact absurd hh h1
          · exact absurd hh h2
        have hopen1 : ∀ x, stUpdate ts (np.ID node) TState.stateOpen x = TState.stateOpen →
            ∃ u ∈ path ++ [node], np.ID u = x := by
          intro x hx
          by_cases hxn : x = np.ID node
          · exact ⟨node, List.mem_append_right path (List.mem_singleton.mpr rfl), hxn.symm⟩
          · have hx' : ts x = TState.stateOpen := by simpa [stUpdate, hxn] using hx
            obtain ⟨u, hu, hid⟩ := hopen x hx'
            exact ⟨u, List.mem_append_left _ hu, hid⟩
        have hInv1 : GInv np (stUpdate ts (np.ID node) TState.stateOpen) s := by
          constructor
          · intro x hx
            apply hInv.closed_mem x
            by_cases hxn : x = np.ID node
            · subst hxn; simp [stUpdate] at hx
            · simpa [stUpdate, hxn] using hx
          · intro w hw
            have hclosed := hInv.mem_closed w hw
            have hwn : np.ID w ≠ np.ID node := by
              intro hh; rw [hh, hnew] at hclosed; cases hclosed
            simpa [stUpdate, hwn] using hclosed
          · exact hInv.nodup
          · exact hInv.order
        have hcard1 :
            (S.filter fun x =>
              ¬ stUpdate ts (np.ID node) TState.stateOpen x = TState.stateOpen).card < fuel := by
          rw [filter_stUpdate_open]
          have hmem : np.ID node ∈ S.filter fun x => ¬ ts x = TState.stateOpen :=
            Finset.mem_filter.mpr ⟨hS node hreach, h1⟩
          rw [Finset.card_erase_of_mem hmem]
          have hpos : 0 < (S.filter fun x => ¬ ts x = TState.stateOpen).card :=
            Finset.card_pos.mpr ⟨_, hmem⟩
          omega
        have hstep : ∀ i ts0 s0, i < np.ChildCount node →
            (GInv np ts0 s0 ∧
              (∀ x, ts0 x = TState.stateOpen → ∃ u ∈ path ++ [node], np.ID u = x) ∧
              (S.filter fun x => ¬ ts0 x = TState.stateOpen).card < fuel) →
            ∃ c, np.Child node i = Except.ok c ∧
              ∃ ts' s',
                (fun c ts1 s1 => dfsVisit np fuel c ts1 s1 (path ++ [node])) c ts0 s0 =
                  some (Except.ok (ts', s')) ∧
                (GInv np ts' s' ∧
                  (∀ x, ts' x = TState.stateOpen → ∃ u ∈ path ++ [node], np.ID u = x) ∧
                  (S.filter fun x => ¬ ts' x = TState.stateOpen).card < fuel) ∧
                evolv ts0 ts' ∧
                ts' (np.ID c) = TState.stateClosed ∧
                (∀ w ∈ s', w ∈ s0 ∨ Relation.ReflTransGen (edge np) node w) := by
          intro i ts0 s0 hilt hQ
          obtain ⟨hInv0, hopen0, hcard0⟩ := hQ
          obtain ⟨c, hc⟩ := htot node hreach i hilt
          have hedge : edge np node c := ⟨i, hilt, hc⟩
          have hreach_c : Reach np roots c := by
            obtain ⟨r, hr, rtg⟩ := hreach
            exact ⟨r, hr, rtg.tail hedge⟩
          have hbr1 : ∀ u ∈ path ++ [node],
              Reach np roots u ∧ Relation.TransGen (edge np) u c := by
            intro u hu
            rcases List.mem_append.mp hu with hup | hun
            · exact ⟨(hbr u hup).1, (hbr u hup).2.tail hedge⟩
            · have : u = node := List.mem_singleton.mp hun
              subst this
              exact ⟨hreach, Relation.TransGen.single hedge⟩
          obtain ⟨ts', s', heq, hInv', hev', hcl', hrw'⟩ :=
            ih c ts0 s0 (path ++ [node]) hreach_c hbr1 hopen0 hInv0 hcard0
          refine ⟨c, hc, ts', s', heq, ⟨hInv', ?_, ?_⟩, hev', hcl', ?_⟩
          · intro x hx
            exact hopen0 x ((evolv_open_iff hev' x).mp hx)
          · rw [evolv_filter_card S hev']; exact hcard0
          · intro w hw
            rcases hrw' w hw with h | h
            · exact Or.inl h
            · exact Or.inr (Relation.ReflTransGen.head hedge h)
        obtain ⟨ts2, s2, hr_eq, ⟨hInv2, hopen2, hcard2⟩, hev2, hcls_all, hrw_all⟩ :=
          visitRange_success np
            (fun c ts1 s1 => dfsVisit np fuel c ts1 s1 (path ++ [node])) node
            (fun ts0 s0 => GInv np ts0 s0 ∧
              (∀ x, ts0 x = TState.stateOpen → ∃ u ∈ path ++ [node], np.ID u = x) ∧
              (S.filter fun x => ¬ ts0 x = TState.stateOpen).card < fuel)
            hstep (List.range (np.ChildCount node))
            (fun i hi => List.mem_range.mp hi)
            (stUpdate ts (np.ID node) TState.stateOpen) s ⟨hInv1, hopen1, hcard1⟩
        have hts2_open : ts2 (np.ID node) = TState.stateOpen :=
          (evolv_open_iff hev2 (np.ID node)).mpr (by simp [stUpdate])
        have hid_ne : ∀ w ∈ s2, np.ID w ≠ np.ID node := by
          intro w hw hh
          have hcw := hInv2.mem_closed w hw
          rw [hh, hts2_open] at hcw
          cases hcw
        refine ⟨stUpdate ts2 (np.ID node) TState.stateClosed, s2 ++ [node], ?_, ?_, ?_, ?_, ?_⟩
        · rw [dfsVisit_succ, if_neg h1, if_neg h2, hr_eq]
        · constructor
          · intro x hx
            by_cases hxn : x = np.ID node
            · exact ⟨node, List.mem_append_right _ (List.mem_singleton.mpr rfl), hxn.symm⟩
            · have hx' : ts2 x = TState.stateClosed := by simpa [stUpdate, hxn] using hx
              obtain ⟨w, hw, hid⟩ := hInv2.closed_mem x hx'
              exact ⟨w, List.mem_append_left _ hw, hid⟩
          · intro w hw
            rcases List.mem_append.mp hw with hws | hwn
            · have hne := hid_ne w hws
              have hcw := hInv2.mem_closed w hws
              simpa [stUpdate, hne] using hcw
            · have : w = node := List.mem_singleton.mp hwn
              subst this
              simp [stUpdate]
          · rw [List.pairwise_append]
            refine ⟨hInv2.nodup, List.pairwise_singleton _ _, fun a ha b hb => ?_⟩
            have : b = node := List.mem_singleton.mp hb
            subst this
            exact hid_ne a ha
          · intro l1 a l2 hsplit v hedge2
            rcases snoc_split l1 a l2 s2 node hsplit.symm with ⟨hl2, hl1, ha⟩ | ⟨l2', hl2, hs2⟩
            · subst ha
              subst hl1
              obtain ⟨i, hilt, hceq⟩ := hedge2
              have hclosed_v : ts2 (np.ID v) = TState.stateClosed :=
                hcls_all i (List.mem_range.mpr hilt) v hceq
              obtain ⟨w, hw, hid⟩ := hInv2.closed_mem _ hclosed_v
              exact ⟨w, List.mem_append_left _ hw, hid⟩
            · obtain ⟨w, hw, hid⟩ := hInv2.order l1 a l2' hs2 v hedge2
              exact ⟨w, hw, hid⟩
        · intro x
          by_cases hxn : x = np.ID node
          · subst hxn
            exact Or.inr ⟨hnew, by simp [stUpdate]⟩
          · have h1x : stUpdate ts (np.ID node) TState.stateOpen x = ts x := by
              simp [stUpdate, hxn]
            have h2x : stUpdate ts2 (np.ID node) TState.stateClosed x = ts2 x := by
              simp [stUpdate, hxn]
            rw [h2x]
            rcases hev2 x with hh | ⟨hn, hcx⟩
            · rw [hh, h1x]; exact Or.inl rfl
            · rw [h1x] at hn; exact Or.inr ⟨hn, hcx⟩
        · simp [stUpdate]
        · intro w hw
          rcases List.mem_append.mp hw with hws | hwn
          · exact hrw_all w hws
          · have : w = node := List.mem_singleton.mp hwn
            subst this
            exact Or.inr Relation.ReflTransGen.refl

lemma sortLoop_success (np : NodeProvider V I ε) (roots : List V) (S : Finset I)
    (hacyc : ∀ u w, Reach np roots u → Relation.TransGen (edge np) u w →
      np.ID w ≠ np.ID u)
    (htot : ∀ u, Reach np roots u → ∀ i, i < np.ChildCount u →
      ∃ c, np.Child u i = Except.ok c)
    (hS : ∀ u, Reach np roots u → np.ID u ∈ S) :
    ∀ rest, (∀ r ∈ rest, r ∈ roots) →
      ∀ ts res, (∀ x, ¬ ts x = TState.stateOpen) → GInv np ts res →
        ∃ ts' out, sortLoop np (S.card + 1) rest ts res = some (Except.ok out) ∧
          GInv np ts' out ∧ (∀ x, ¬ ts' x = TState.stateOpen) ∧ evolv ts ts' ∧
          (∀ r ∈ rest, ts' (np.ID r) = TState.stateClosed) ∧
          (∀ w ∈ out, w ∈ res ∨ ∃ r ∈ rest, Relation.ReflTransGen (edge np) r w) := by
  intro rest
  induction rest with
  | nil =>
    intro _ ts res hno hInv
    exact ⟨ts, res, rfl, hInv, hno, evolv_refl ts,
      fun r hr => absurd hr (List.not_mem_nil r), fun w hw => Or.inl hw⟩
  | cons node rest ih =>
    intro hsub ts res hno hInv
    have hreach : Reach np roots node :=
      ⟨node, hsub node (List.mem_cons_self node rest), Relation.ReflTransGen.refl⟩
    have hcard : (S.filter fun x => ¬ ts x = TState.stateOpen).card < S.card + 1 :=
      Nat.lt_succ_of_le (Finset.card_filter_le S _)
    obtain ⟨ts2, s2, heq, hInv2, hev2, hcl2, hrw2⟩ :=
      dfsVisit_success np roots S hacyc htot hS (S.card + 1) node ts res []
        hreach (fun u hu => absurd hu (List.not_mem_nil u))
        (fun x hx => absurd hx (hno x)) hInv hcard
    have hno2 : ∀ x, ¬ ts2 x = TState.stateOpen := fun x hx =>
      hno x ((evolv_open_iff hev2 x).mp hx)
    obtain ⟨ts', out, heq', hInv', hno', hev', hcl', hrw'⟩ :=
      ih (fun r hr => hsub r (List.mem_cons_of_mem node hr)) ts2 s2 hno2 hInv2
    refine ⟨ts', out, ?_, hInv', hno', evolv_trans hev2 hev', ?_, ?_⟩
    · simp only [sortLoop]
      rw [heq]
      dsimp only
      exact heq'
    · intro r hr
      rcases List.mem_cons.mp hr with rfl | hrr
      · exact evolv_closed hev' hcl2
      · exact hcl' r hrr
    · intro w hw
      rcases hrw' w hw with hw2 | ⟨r, hr, rtg⟩
      · rcases hrw2 w hw2 with hwr | rtg
        · exact Or.inl hwr
        · exact Or.inr ⟨node, List.mem_cons_self node rest, rtg⟩
      · exact Or.inr ⟨r, List.mem_cons_of_mem node hr, rtg⟩

lemma ginv_init (np : NodeProvider V I ε) :
    GInv np (fun _ => TState.stateNew) ([] : List V) := by
  constructor
  · intro x hx; cases hx
  · intro w hw; exact absurd hw (List.not_mem_nil w)
  · exact List.Pairwise.nil
  · intro l1 a l2 hsplit v hedge
    exfalso
    rcases l1 with _ | ⟨b, l1'⟩ <;> simp at hsplit

/-- C1: for a consistent provider whose reachable graph is acyclic (with
all reachable child lookups succeeding and reachable identifiers covered
by a finite set), `TopSort` succeeds, and in the output every edge's child
sits at a position no later than its parent's. -/
theorem topSort_acyclic_sorted (np : NodeProvider V I ε) (roots : List V) (S : Finset I)
    (hacyc : ∀ u w, Reach np roots u → Relation.TransGen (edge np) u w →
      np.ID w ≠ np.ID u)
    (htot : ∀ u, Reach np roots u → ∀ i, i < np.ChildCount u →
      ∃ c, np.Child u i = Except.ok c)
    (hS : ∀ u, Reach np roots u → np.ID u ∈ S) :
    ∃ fuel out, TopSort (some np) fuel roots = some (Except.ok out) ∧
      ∀ i j (hi : i < out.length) (hj : j < out.length),
        edge np (out.get ⟨i, hi⟩) (out.get ⟨j, hj⟩) → j ≤ i := by
  obtain ⟨ts', out, heq, hInv', hno', hev', hcl', hrw'⟩ :=
    sortLoop_success np roots S hacyc htot hS roots (fun r hr => hr)
      (fun _ => TState.stateNew) [] (fun x hx => by cases hx) (ginv_init np)
  refine ⟨S.card + 1, out, by rw [TopSort]; exact heq, ?_⟩
  intro i j hi hj hedge
  have hpair := List.pairwise_iff_get.mp hInv'.nodup
  have key : ∀ (k : Nat) (hk : k < out.length),
      np.ID (out.get ⟨k, hk⟩) = np.ID (out.get ⟨j, hj⟩) → k = j := by
    intro k hk hkj
    by_contra hne
    rcases Nat.lt_or_ge k j with hlt | hge
    · exact hpair ⟨k, hk⟩ ⟨j, hj⟩ hlt hkj
    · have hlt : j < k := lt_of_le_of_ne hge (fun hh => hne hh.symm)
      exact hpair ⟨j, hj⟩ ⟨k, hk⟩ hlt hkj.symm
  have hsplit : out = out.take i ++ out.get ⟨i, hi⟩ :: out.drop (i + 1) := by
    conv_lhs => rw [← List.take_append_drop i out]
    rw [List.drop_eq_getElem_cons hi]
    rfl
  obtain ⟨w, hw, hid⟩ := hInv'.order (out.take i) (out.get ⟨i, hi⟩)
    (out.drop (i + 1)) hsplit (out.get ⟨j, hj⟩) hedge
  rcases List.mem_append.mp hw with hwt | hwe
  · obtain ⟨⟨k, hk⟩, hkw⟩ := List.mem_iff_get.mp hwt
    have hk_lt_i : k < i := lt_of_lt_of_le hk (by simp [List.length_take])
    have hk_lt : k < out.length := lt_trans hk_lt_i hi
    have hkw' : out.get ⟨k, hk_lt⟩ = w := by
      rw [← hkw]
      simp [List.get_eq_getElem, List.getElem_take]
    have hkj : k = j := key k hk_lt (by rw [hkw']; exact hid)
    omega
  · have hwi : w = out.get ⟨i, hi⟩ := List.mem_singleton.mp hwe
    have hij : i = j := key i hi (by rw [← hwi]; exact hid)
    omega

/-- C2: for a consistent acyclic provider (reachable child lookups total,
reachable identifiers finite), `TopSort` succeeds and its output lists
exactly the vertices reachable from the roots, each identifier exactly
once — however many parents share a child and however often a root is
repeated in the roots list. -/
theorem topSort_reachable_exactly_once (np : NodeProvider V I ε) (roots : List V)
    (S : Finset I)
    (hcons : ∀ u w, np.ID u = np.ID w →
      np.ChildCount u = np.ChildCount w ∧ ∀ i, np.Child u i = np.Child w i)
    (hacyc : ∀ u w, Reach np roots u → Relation.TransGen (edge np) u w →
      np.ID w ≠ np.ID u)
    (htot : ∀ u, Reach np roots u → ∀ i, i < np.ChildCount u →
      ∃ c, np.Child u i = Except.ok c)
    (hS : ∀ u, Reach np roots u → np.ID u ∈ S) :
    ∃ fuel out, TopSort (some np) fuel roots = some (Except.ok out) ∧
      List.Pairwise (fun a b => np.ID a ≠ np.ID b) out ∧
      (∀ w ∈ out, Reach np roots w) ∧
      (∀ u, Reach np roots u → ∃ w ∈ out, np.ID w = np.ID u) := by
  obtain ⟨ts', out, heq, hInv', hno', hev', hcl', hrw'⟩ :=
    sortLoop_success np roots S hacyc htot hS roots (fun r hr => hr)
      (fun _ => TState.stateNew) [] (fun x hx => by cases hx) (ginv_init np)
  refine ⟨S.card + 1, out, by rw [TopSort]; exact heq, hInv'.nodup, ?_, ?_⟩
  · intro w hw
    rcases hrw' w hw with h | ⟨r, hr, rtg⟩
    · exact absurd h (List.not_mem_nil w)
    · exact ⟨r, hr, rtg⟩
  · intro u hu
    obtain ⟨r, hr, rtg⟩ := hu
    have hclosed : ts' (np.ID u) = TState.stateClosed := by
      induction rtg with
      | refl => exact hcl' r hr
      | tail rtg2 hstep2 ih2 =>
        obtain ⟨t, ht, hidt⟩ := hInv'.closed_mem _ ih2
        obtain ⟨i, hilt, hceq⟩ := hstep2
        obtain ⟨hcount, hchild⟩ := hcons t _ hidt
        have hedge_t : edge np t _ := ⟨i, by rw [hcount]; exact hilt, by rw [hchild i]; exact hceq⟩
        obtain ⟨l1, l2, hsplit⟩ := List.append_of_mem ht
        obtain ⟨w, hw, hid⟩ := hInv'.order l1 t l2 hsplit _ hedge_t
        have hw_out : w ∈ out := by
          rw [hsplit]
          rcases List.mem_append.mp hw with h | h
          · exact List.mem_append_left _ h
          · have : w = t := List.mem_singleton.mp h
            subst this
            exact List.mem_append_right _ (List.mem_cons_self _ _)
        have hwc := hInv'.mem_closed w hw_out
        rw [hid] at hwc
        exact hwc
    obtain ⟨w, hw, hid⟩ := hInv'.closed_mem _ hclosed
    exact ⟨w, hw, hid⟩

lemma npNoChildren_no_edge (a b : Nat) : ¬ edge npNoChildren a b := by
  intro h
  obtain ⟨i, hi, _⟩ := h
  simp [npNoChildren] at hi

lemma npNoChildren_no_trans (u w : Nat) :
    ¬ Relation.TransGen (edge npNoChildren) u w := by
  intro h
  induction h with
  | single h' => exact npNoChildren_no_edge _ _ h'
  | tail _ h' _ => exact npNoChildren_no_edge _ _ h'

lemma npNoChildren_reach_mem {roots : List Nat} {v : Nat}
    (h : Reach npNoChildren roots v) : v ∈ roots := by
  obtain ⟨r, hr, rtg⟩ := h
  induction rtg with
  | refl => exact hr
  | tail _ h' _ => exact absurd h' (npNoChildren_no_edge _ _)

/-- C1 witness: the theorem applied to the one-vertex edgeless provider. -/
theorem topSort_acyclic_sorted_witness :
    ∃ fuel out, TopSort (some npNoChildren) fuel [0] = some (Except.ok out) ∧
      ∀ i j (hi : i < out.length) (hj : j < out.length),
        edge npNoChildren (out.get ⟨i, hi⟩) (out.get ⟨j, hj⟩) → j ≤ i :=
  topSort_acyclic_sorted npNoChildren [0] {0}
    (fun u w _ htr => absurd htr (npNoChildren_no_trans u w))
    (fun u _ i hi => by simp [npNoChildren] at hi)
    (fun u hu => by
      have hm := npNoChildren_reach_mem hu
      simp at hm
      simp [npNoChildren, hm])

/-- C2 witness: the theorem applied to the one-vertex edgeless provider. -/
theorem topSort_reachable_exactly_once_witness :
    ∃ fuel out, TopSort (some npNoChildren) fuel [0] = some (Except.ok out) ∧
      List.Pairwise (fun a b => npNoChildren.ID a ≠ npNoChildren.ID b) out ∧
      (∀ w ∈ out, Reach npNoChildren [0] w) ∧
      (∀ u, Reach npNoChildren [0] u → ∃ w ∈ out, npNoChildren.ID w = npNoChildren.ID u) :=
  topSort_reachable_exactly_once npNoChildren [0] {0}
    (fun u w _ => ⟨rfl, fun _ => rfl⟩)
    (fun u w _ htr => absurd htr (npNoChildren_no_trans u w))
    (fun u _ i hi => by simp [npNoChildren] at hi)
    (fun u hu => by
      have hm := npNoChildren_reach_mem hu
      simp at hm
      simp [npNoChildren, hm])

end MbtGraph
